import Mathlib

/-!
# Verification of the caching HTTP client (`APIService`) of crypto-api-tracker

This file gives a shallow embedding of `src/services/api_service.py` and proves
properties of its cache-key derivation, cache validity check, cache persistence
primitives, and the `get` (fetch) control flow.

Modelling conventions:

* JSON documents are modelled by the inductive type `Json`.  JSON numbers are
  modelled as integers: the exact numeric value never influences control flow
  in the service except through Python truthiness (zero vs non-zero), which is
  preserved by this modelling.
* Query parameters (`params`) are Python dicts mapping strings to scalar
  values (`str`, `int`, `bool` are the kinds used by this repository and
  mandated by the spec); a dict is modelled as an association list with
  no duplicate keys (`NodupKeys`).
* `json.dumps(..., sort_keys=True)` is modelled character-for-character
  (`dumps`): keys sorted, `", "` and `": "` separators, `ensure_ascii=True`
  escaping of strings (including `\uXXXX` escapes and surrogate pairs).
* The filesystem cache directory is modelled as an association list from file
  path to `CacheEntry` (parsed content + mtime).  A present file that fails to
  deserialize is modelled by `content = none`; `json.dump`/`json.load` of the
  Python standard library are treated as a correct serialization pair, so a
  file written by `_save_to_cache data` has `content = some data`.
* Wall-clock time is an integer `now` passed explicitly.
* The outcome of the single network round trip a call may perform is an
  explicit input `net : NetResult`.  `requests.Response.raise_for_status`
  raises `HTTPError` exactly for status codes 400-599 (4xx client errors and
  5xx server errors); `response.json()` on an unparseable body raises
  `requests.exceptions.JSONDecodeError`, a `RequestException` (requests >=
  2.27), hence is caught by the fallback handler.  Transport errors and
  timeouts are both `NetResult.transportError`.
* MD5 is a fixed deterministic function of the pre-hash key string; theorems
  about key derivation are stated on the pre-hash string (`cacheKeyString`),
  which is what "identical/different modulo the accepted hash-collision risk"
  means, and `get` is parameterised by an arbitrary digest function `md5`.
-/

/-- A JSON document, as produced by `json.load` / `response.json()`. -/
inductive Json where
  | null
  | jbool (b : Bool)
  | jnum (n : Int)
  | jstr (s : String)
  | jarr (elems : List Json)
  | jobj (fields : List (String × Json))

/-- Python truthiness of a JSON document (`if cached_data:`):
`None`, `False`, `0`, `""`, `[]` and `{}` are falsy. -/
def truthy : Json → Bool
  | .null => false
  | .jbool b => b
  | .jnum n => n != 0
  | .jstr s => s != ""
  | .jarr elems => !elems.isEmpty
  | .jobj fields => !fields.isEmpty

/-- A scalar query-parameter value (the value kinds this repository passes:
strings, ints, bools). -/
inductive PVal where
  | pstr (s : String)
  | pint (n : Int)
  | pbool (b : Bool)
deriving DecidableEq

/-- A Python dict of query parameters, as an association list. -/
abbrev Params := List (String × PVal)

/-- The dict invariant: no duplicate keys. -/
abbrev NodupKeys (p : Params) : Prop := (p.map Prod.fst).Nodup

/-- The sixteen lowercase hex digits. -/
def hexDigits : List Char := "0123456789abcdef".data

/-- Lowercase hex digit for `n < 16`. -/
def hexDig (n : Nat) : Char := hexDigits.getD n '0'

/-- Four lowercase hex digits of `n < 0x10000`, as in Python's `"\\u%04x"`. -/
def hex4 (n : Nat) : List Char :=
  [hexDig (n / 4096 % 16), hexDig (n / 256 % 16), hexDig (n / 16 % 16), hexDig (n % 16)]

/-- Escape of a single character by Python's `json.dumps` with the default
`ensure_ascii=True`: printable ASCII other than `"` and backslash is emitted
verbatim; the two-character escapes of `ESCAPE_DCT`; `\uXXXX` for other BMP
characters; a surrogate pair of `\uXXXX` escapes for astral characters. -/
def escChar (c : Char) : List Char :=
  if c = '"' then ['\\', '"']
  else if c = '\\' then ['\\', '\\']
  else if c = '\n' then ['\\', 'n']
  else if c = '\r' then ['\\', 'r']
  else if c = '\t' then ['\\', 't']
  else if c.toNat = 8 then ['\\', 'b']
  else if c.toNat = 12 then ['\\', 'f']
  else if 0x20 ≤ c.toNat ∧ c.toNat ≤ 0x7E then [c]
  else if c.toNat < 0x10000 then '\\' :: 'u' :: hex4 c.toNat
  else '\\' :: 'u' :: hex4 (0xD800 + (c.toNat - 0x10000) / 0x400) ++
       '\\' :: 'u' :: hex4 (0xDC00 + (c.toNat - 0x10000) % 0x400)

/-- Escape of a string body (concatenated character escapes). -/
def escape : List Char → List Char
  | [] => []
  | c :: cs => escChar c ++ escape cs

/-- Decimal digits of a natural number, as in Python's `str`. -/
def natDump (n : Nat) : List Char :=
  if _h : n < 10 then [hexDig n]
  else natDump (n / 10) ++ [hexDig (n % 10)]
decreasing_by exact Nat.div_lt_self (by omega) (by omega)

/-- Decimal rendering of an integer, as in Python's `str`. -/
def intDump : Int → List Char
  | .ofNat n => natDump n
  | .negSucc n => '-' :: natDump (n + 1)

/-- `json.dumps` rendering of a scalar parameter value. -/
def pvalDump : PVal → List Char
  | .pstr s => '"' :: (escape s.data ++ ['"'])
  | .pint n => intDump n
  | .pbool true => ['t', 'r', 'u', 'e']
  | .pbool false => ['f', 'a', 'l', 's', 'e']

/-- `json.dumps` rendering of one `"key": value` item. -/
def entryDump (e : String × PVal) : List Char :=
  '"' :: (escape e.1.data ++ '"' :: ':' :: ' ' :: pvalDump e.2)

/-- `json.dumps` rendering of a list of items, joined by `", "`. -/
def entriesDump : List (String × PVal) → List Char
  | [] => []
  | [e] => entryDump e
  | e :: f :: es => entryDump e ++ ',' :: ' ' :: entriesDump (f :: es)

/-- `json.dumps` rendering of a whole object (already key-sorted). -/
def objDump (l : List (String × PVal)) : List Char :=
  '{' :: (entriesDump l ++ ['}'])

/-- Ordered insertion by key (Python string comparison is code-point order,
which coincides with `String`'s linear order). -/
def insertEntry (e : String × PVal) : Params → Params
  | [] => [e]
  | f :: fs => if e.1 ≤ f.1 then e :: f :: fs else f :: insertEntry e fs

/-- Sorting a dict's items by key, as `sort_keys=True` does. -/
def sortEntries : Params → Params
  | [] => []
  | e :: es => insertEntry e (sortEntries es)

/-- `json.dumps(p, sort_keys=True)` as a character list. -/
def dumps (p : Params) : List Char := objDump (sortEntries p)

/-- The pre-hash cache key of `APIService.get`
(`key = endpoint + json.dumps(params or {}, sort_keys=True)`), as a
character list.  `params or ` on `None` and on the empty (falsy) dict both
yield the empty dict. -/
def cacheKeyChars (endpoint : String) (params : Option Params) : List Char :=
  endpoint.data ++ dumps (params.getD [])

/-- The pre-hash cache key as a string. -/
def cacheKeyString (endpoint : String) (params : Option Params) : String :=
  ⟨cacheKeyChars endpoint params⟩

/-- `APIService.CACHE_EXPIRY` (seconds). -/
def CACHE_EXPIRY : Int := 300

/-- A cache file: parsed JSON content (`none` when the file exists but fails
to deserialize) plus its last-write time `st_mtime`. -/
structure CacheEntry where
  content : Option Json
  mtime : Int

/-- The cache directory: file path to cache file. -/
abbrev Cache := List (String × CacheEntry)

/-- `APIService._get_cache_path`: `CACHE_DIR / f"{e.replace('/', '_')}.json"`. -/
def get_cache_path (e : String) : String :=
  "data/cache/" ++ ⟨e.data.map (fun c => if c = '/' then '_' else c)⟩ ++ ".json"

/-- Look up the cache file at a path. -/
def fileEntry (c : Cache) (file : String) : Option CacheEntry :=
  match c with
  | [] => none
  | (f, e) :: rest => if f = file then some e else fileEntry rest file

/-- `APIService._is_cache_valid`: the file exists and
`time.time() - cache_file.stat().st_mtime < CACHE_EXPIRY`. -/
def is_cache_valid (c : Cache) (now : Int) (file : String) : Bool :=
  match fileEntry c file with
  | none => false
  | some e => decide (now - e.mtime < CACHE_EXPIRY)

/-- `APIService._save_to_cache`: (over)write the file with the serialized
data; its mtime becomes the current time. -/
def save_to_cache (c : Cache) (file : String) (data : Json) (now : Int) : Cache :=
  (file, ⟨some data, now⟩) :: c.filter (fun p => p.1 != file)

/-- `APIService._load_from_cache`: parsed content of the file, `none` if the
file is absent or fails to parse (`IOError`/`JSONDecodeError`). -/
def load_from_cache (c : Cache) (file : String) : Option Json :=
  (fileEntry c file).bind (fun e => e.content)

/-- Outcome of the (single) network round trip available to a `get` call:
a transport failure (connection error / timeout), or an HTTP response with a
status code and a body (`none` when the body is not parseable JSON). -/
inductive NetResult where
  | transportError
  | response (status : Nat) (body : Option Json)

/-- The `requests` exception that escapes a failed fetch. -/
inductive FetchError where
  | transport
  | httpStatus (status : Nat)
  | badJson
deriving DecidableEq

/-- Result of a `get` call: the returned value or raised error, the cache
directory afterwards, and whether a network request was issued. -/
structure GetResult where
  result : Except FetchError Json
  cache : Cache
  networkCalled : Bool

/-- The `except RequestException` handler of `APIService.get`: fall back to
the cache entry regardless of freshness if it loads and is truthy, else
re-raise the original error. -/
def fallback (c : Cache) (file : String) (err : FetchError) : GetResult :=
  match load_from_cache c file with
  | some d => if truthy d then ⟨.ok d, c, true⟩ else ⟨.error err, c, true⟩
  | none => ⟨.error err, c, true⟩

/-- The network part of `APIService.get`: issue the request;
`raise_for_status` raises for status 400-599; parse the body (an unparseable
body raises a `RequestException` as well); on success save to the cache and
return the parsed data. -/
def networkFetch (c : Cache) (now : Int) (net : NetResult) (file : String) : GetResult :=
  match net with
  | .transportError => fallback c file .transport
  | .response status body =>
    if 400 ≤ status ∧ status < 600 then fallback c file (.httpStatus status)
    else
      match body with
      | none => fallback c file .badJson
      | some data => ⟨.ok data, save_to_cache c file data now, true⟩

/-- `APIService.get`: derive the cache key, serve a valid truthy cache entry
without touching the network, otherwise fetch from the network with
cache-fallback on failure.  `md5` is the digest function used to name the
cache file. -/
def APIService.get (md5 : String → String) (c : Cache) (now : Int) (net : NetResult)
    (endpoint : String) (params : Option Params) : GetResult :=
  let file := get_cache_path (md5 (cacheKeyString endpoint params))
  if is_cache_valid c now file then
    match load_from_cache c file with
    | some d => if truthy d then ⟨.ok d, c, false⟩ else networkFetch c now net file
    | none => networkFetch c now net file
  else networkFetch c now net file

/-- Whether the fast path serves this call from the cache (the condition
under which `get` returns before any network activity). -/
def servedFromCache (c : Cache) (now : Int) (file : String) : Bool :=
  is_cache_valid c now file &&
    (match load_from_cache c file with
     | some d => truthy d
     | none => false)

/-- The failure condition of the network round trip: a transport error or
timeout, or a response whose status makes `raise_for_status` raise. -/
def netFails : NetResult → Prop
  | .transportError => True
  | .response status _ => 400 ≤ status ∧ status < 600

/-- First lookup of an association list by key (`dict` access). -/
def lookupP (k : String) : Params → Option PVal
  | [] => none
  | (k1, v) :: ps => if k1 = k then some v else lookupP k ps

/-- Numeric value of a lowercase hex digit (decoder side). -/
def unhex (c : Char) : Nat := hexDigits.indexOf c

/-- Decimal value of a digit character. -/
def digitVal (c : Char) : Nat := c.toNat - 48

/-- Numeric value of a decimal digit string (left inverse of `natDump`). -/
def valOfDigits (l : List Char) : Nat := l.foldl (fun a c => a * 10 + digitVal c) 0

/-- Decoder for `escape`: recovers the original characters from a serialized
string body (junk on inputs that are not encodings). -/
def unesc : List Char → List Char
  | [] => []
  | c :: rest =>
    if c = '\\' then
      match rest with
      | 'u' :: h1 :: h2 :: h3 :: h4 :: rest2 =>
        let n := unhex h1 * 4096 + unhex h2 * 256 + unhex h3 * 16 + unhex h4
        if 0xD800 ≤ n ∧ n < 0xDC00 then
          match rest2 with
          | '\\' :: 'u' :: g1 :: g2 :: g3 :: g4 :: rest3 =>
            let m := unhex g1 * 4096 + unhex g2 * 256 + unhex g3 * 16 + unhex g4
            Char.ofNat (0x10000 + (n - 0xD800) * 0x400 + (m - 0xDC00)) :: unesc rest3
          | _ => []
        else Char.ofNat n :: unesc rest2
      | 'n' :: rest2 => '\n' :: unesc rest2
      | 'r' :: rest2 => '\r' :: unesc rest2
      | 't' :: rest2 => '\t' :: unesc rest2
      | 'b' :: rest2 => Char.ofNat 8 :: unesc rest2
      | 'f' :: rest2 => Char.ofNat 12 :: unesc rest2
      | e :: rest2 => e :: unesc rest2
      | [] => []
    else c :: unesc rest
termination_by l => l.length
decreasing_by all_goals (subst_vars; simp [List.length_cons]) <;> omega

/-- Scanner for a serialized string literal body: consumes characters up to
the closing (unescaped) double quote, skipping backslash escape pairs, and
returns the consumed body together with what follows the closing quote. -/
def takeLit : List Char → Option (List Char × List Char)
  | [] => none
  | c :: r =>
    if c = '"' then some ([], r)
    else if c = '\\' then
      match r with
      | [] => none
      | c2 :: r2 => (takeLit r2).map (fun p => (c :: c2 :: p.1, p.2))
    else (takeLit r).map (fun p => (c :: p.1, p.2))

/-- Count of unescaped double quotes (quotes that act as string delimiters
in serialized JSON output). -/
def uq : List Char → Nat
  | [] => 0
  | c :: r =>
    if c = '"' then 1 + uq r
    else if c = '\\' then
      match r with
      | [] => 0
      | _ :: r2 => uq r2
    else uq r

/-- A character list made of whole escape units: plain characters (neither a
quote nor a backslash) and backslash pairs whose second character is never an
opening brace.  `escChar` only produces such lists, and they are transparent
to `uq` and `takeLit`. -/
inductive EscUnits : List Char → Prop where
  | nil : EscUnits []
  | plain (c : Char) (l : List Char) :
      c ≠ '"' → c ≠ '\\' → EscUnits l → EscUnits (c :: l)
  | pair (k : Char) (l : List Char) :
      k ≠ '\x7b' → EscUnits l → EscUnits ('\\' :: k :: l)

/-- The `", "`-joined serialization of the items after the first one. -/
def restDump : List (String × PVal) → List Char
  | [] => []
  | e :: es => ',' :: ' ' :: entriesDump (e :: es)

/-- Heads that may follow a serialized value inside a serialized object: the
item separator or the closing brace. -/
def sepHead (l : List Char) : Prop := l.head? = some ',' ∨ l.head? = some '\x7d'


section ServiceLemmas

theorem fileEntry_save_self (c : Cache) (file : String) (d : Json) (now : Int) :
    fileEntry (save_to_cache c file d now) file = some ⟨some d, now⟩ := by
  simp [save_to_cache, fileEntry]

theorem fileEntry_filter (c : Cache) (file f : String) (hf : f ≠ file) :
    fileEntry (c.filter (fun p => p.1 != file)) f = fileEntry c f := by
  induction c with
  | nil => rfl
  | cons p rest ih =>
    obtain ⟨pf, pe⟩ := p
    by_cases hp : pf = file
    · subst hp
      have hne : pf ≠ f := fun h => hf h.symm
      simp [List.filter_cons, fileEntry, hne, ih]
    · by_cases hpf : pf = f
      · subst hpf
        simp [List.filter_cons, fileEntry, hf]
      · simp [List.filter_cons, fileEntry, hp, hpf, ih]

theorem fileEntry_save_other (c : Cache) (file f : String) (d : Json) (now : Int)
    (hf : f ≠ file) :
    fileEntry (save_to_cache c file d now) f = fileEntry c f := by
  have hne : file ≠ f := fun h => hf h.symm
  simp [save_to_cache, fileEntry, hne, fileEntry_filter c file f hf]

theorem load_save (c : Cache) (file : String) (d : Json) (now : Int) :
    load_from_cache (save_to_cache c file d now) file = some d := by
  simp [load_from_cache, fileEntry_save_self]

theorem fallback_cache_eq (c : Cache) (file : String) (err : FetchError) :
    (fallback c file err).cache = c := by
  unfold fallback
  rcases load_from_cache c file with _ | d
  · rfl
  · by_cases ht : truthy d <;> simp [ht]

theorem fallback_networkCalled (c : Cache) (file : String) (err : FetchError) :
    (fallback c file err).networkCalled = true := by
  unfold fallback
  rcases load_from_cache c file with _ | d
  · rfl
  · by_cases ht : truthy d <;> simp [ht]

theorem fallback_of_load_some (c : Cache) (file : String) (err : FetchError) (d : Json)
    (hl : load_from_cache c file = some d) (ht : truthy d = true) :
    fallback c file err = ⟨.ok d, c, true⟩ := by
  unfold fallback
  rw [hl]
  simp [ht]

theorem fallback_of_load_falsy (c : Cache) (file : String) (err : FetchError) (d : Json)
    (hl : load_from_cache c file = some d) (ht : truthy d = false) :
    fallback c file err = ⟨.error err, c, true⟩ := by
  unfold fallback
  rw [hl]
  simp [ht]

theorem fallback_of_load_none (c : Cache) (file : String) (err : FetchError)
    (hl : load_from_cache c file = none) :
    fallback c file err = ⟨.error err, c, true⟩ := by
  unfold fallback
  rw [hl]

/-- Master unfolding equation for `get`: either the fast path serves the
(truthy) cached value with no network call, or the call is the network fetch
with fallback. -/
theorem get_eq (md5 : String → String) (c : Cache) (now : Int) (net : NetResult)
    (endpoint : String) (params : Option Params) :
    APIService.get md5 c now net endpoint params =
      if servedFromCache c now (get_cache_path (md5 (cacheKeyString endpoint params))) then
        ⟨.ok ((load_from_cache c (get_cache_path (md5 (cacheKeyString endpoint params)))).getD .null),
          c, false⟩
      else networkFetch c now net (get_cache_path (md5 (cacheKeyString endpoint params))) := by
  unfold APIService.get servedFromCache
  rcases hv : is_cache_valid c now (get_cache_path (md5 (cacheKeyString endpoint params))) with _ | _
  · simp [hv]
  · rcases hl : load_from_cache c (get_cache_path (md5 (cacheKeyString endpoint params))) with _ | d
    · simp [hv, hl]
    · by_cases ht : truthy d <;> simp [hv, hl, ht]

theorem served_load_truthy (c : Cache) (now : Int) (file : String)
    (h : servedFromCache c now file = true) :
    ∃ d, load_from_cache c file = some d ∧ truthy d = true := by
  unfold servedFromCache at h
  rcases hl : load_from_cache c file with _ | d
  · rw [hl] at h
    simp at h
  · rw [hl] at h
    simp only [Bool.and_eq_true] at h
    exact ⟨d, rfl, h.2⟩

theorem networkFetch_transportError (c : Cache) (now : Int) (file : String) :
    networkFetch c now .transportError file = fallback c file .transport := rfl

theorem networkFetch_fail (c : Cache) (now : Int) (s : Nat) (b : Option Json) (file : String)
    (h4 : 400 ≤ s) (h6 : s < 600) :
    networkFetch c now (.response s b) file = fallback c file (.httpStatus s) := by
  simp only [networkFetch]
  rw [if_pos ⟨h4, h6⟩]

theorem networkFetch_badJson (c : Cache) (now : Int) (s : Nat) (file : String)
    (h : ¬(400 ≤ s ∧ s < 600)) :
    networkFetch c now (.response s none) file = fallback c file .badJson := by
  simp only [networkFetch]
  rw [if_neg h]

theorem networkFetch_success (c : Cache) (now : Int) (s : Nat) (j : Json) (file : String)
    (h : ¬(400 ≤ s ∧ s < 600)) :
    networkFetch c now (.response s (some j)) file
      = ⟨.ok j, save_to_cache c file j now, true⟩ := by
  simp only [networkFetch]
  rw [if_neg h]

theorem networkFetch_networkCalled (c : Cache) (now : Int) (net : NetResult) (file : String) :
    (networkFetch c now net file).networkCalled = true := by
  unfold networkFetch
  rcases net with _ | ⟨s, b⟩
  · exact fallback_networkCalled c file .transport
  · by_cases hs : 400 ≤ s ∧ s < 600
    · simp [hs, fallback_networkCalled]
    · rcases b with _ | j
      · simp [hs, fallback_networkCalled]
      · simp [hs]

theorem fallback_ok_truthy (c : Cache) (file : String) (err : FetchError) (v : Json)
    (h : (fallback c file err).result = .ok v) :
    load_from_cache c file = some v ∧ truthy v = true := by
  unfold fallback at h
  rcases hl : load_from_cache c file with _ | d <;> rw [hl] at h
  · simp at h
  · by_cases ht : truthy d
    · simp only [ht, if_true] at h
      obtain rfl : d = v := by simpa using h
      exact ⟨rfl, ht⟩
    · simp [ht] at h

end ServiceLemmas

/-- C1 counterexample: a cache entry for the derived key exists, its age
(0 seconds) is within the 300-second window, and it successfully deserializes
(to the empty object), yet `get` makes a network call and returns the network
body rather than that entry's data — the code additionally requires the
deserialized value to be non-empty (truthy) before serving it. -/
theorem C1_counterexample :
    fileEntry [(get_cache_path (id (cacheKeyString "e" none)), ⟨some (Json.jobj []), 0⟩)]
        (get_cache_path (id (cacheKeyString "e" none))) = some ⟨some (Json.jobj []), 0⟩
    ∧ ((0 : Int) - 0 < 300)
    ∧ (APIService.get id [(get_cache_path (id (cacheKeyString "e" none)), ⟨some (Json.jobj []), 0⟩)]
        0 (.response 200 (some (Json.jstr "fresh"))) "e" none).networkCalled = true
    ∧ (APIService.get id [(get_cache_path (id (cacheKeyString "e" none)), ⟨some (Json.jobj []), 0⟩)]
        0 (.response 200 (some (Json.jstr "fresh"))) "e" none).result = .ok (Json.jstr "fresh") :=
  ⟨rfl, by decide, rfl, rfl⟩

/-- C1 (amended): if a cache entry exists for the derived key, its age is
within the 300-second freshness window, it successfully deserializes, and the
deserialized value is non-empty (truthy), then `get` returns that entry's
data immediately, makes no network call, and leaves the cache unchanged.  The
truthiness requirement is the correction forced by the counterexample. -/
theorem C1_fresh_cache_hit (md5 : String → String) (c : Cache) (now : Int)
    (net : NetResult) (endpoint : String) (params : Option Params)
    (en : CacheEntry) (d : Json)
    (hen : fileEntry c (get_cache_path (md5 (cacheKeyString endpoint params))) = some en)
    (hc : en.content = some d) (ht : truthy d = true)
    (hage : now - en.mtime < 300) :
    APIService.get md5 c now net endpoint params = ⟨.ok d, c, false⟩ := by
  have hload : load_from_cache c (get_cache_path (md5 (cacheKeyString endpoint params)))
      = some d := by
    simp [load_from_cache, hen, hc]
  have hvalid : is_cache_valid c now (get_cache_path (md5 (cacheKeyString endpoint params)))
      = true := by
    simp only [is_cache_valid, hen, CACHE_EXPIRY]
    exact decide_eq_true hage
  have hserved : servedFromCache c now (get_cache_path (md5 (cacheKeyString endpoint params)))
      = true := by
    simp [servedFromCache, hvalid, hload, ht]
  rw [get_eq, if_pos hserved, hload]
  rfl

/-- C1 witness: a concrete fresh, truthy entry is served as-is, with no
network call and the cache unchanged. -/
theorem C1_fresh_cache_hit_witness :
    APIService.get id [(get_cache_path (id (cacheKeyString "e" none)), ⟨some (Json.jstr "d"), 0⟩)]
        0 NetResult.transportError "e" none
      = ⟨.ok (Json.jstr "d"),
          [(get_cache_path (id (cacheKeyString "e" none)), ⟨some (Json.jstr "d"), 0⟩)], false⟩ :=
  C1_fresh_cache_hit id _ 0 _ "e" none ⟨some (Json.jstr "d"), 0⟩ (Json.jstr "d")
    rfl rfl rfl (by decide)

/-- C2 counterexample: a (stale) cache entry for the key exists and
deserializes — to the empty object, which is falsy — and the network fails
with a transport error, yet `get` raises instead of returning the entry's
data: the fallback also requires the deserialized value to be truthy. -/
theorem C2_counterexample :
    fileEntry [(get_cache_path (id (cacheKeyString "e" none)), ⟨some (Json.jobj []), 0⟩)]
        (get_cache_path (id (cacheKeyString "e" none))) = some ⟨some (Json.jobj []), 0⟩
    ∧ (APIService.get id [(get_cache_path (id (cacheKeyString "e" none)), ⟨some (Json.jobj []), 0⟩)]
        1000 .transportError "e" none).result = .error .transport :=
  ⟨rfl, rfl⟩

/-- C2 (amended): if the network request fails (transport error, timeout, or
4xx/5xx status) and a cache entry exists for the key — regardless of
freshness — whose content deserializes to a non-empty (truthy) value, then
`get` returns that entry's data instead of raising, and the cache is left
unchanged.  The truthiness requirement is the correction forced by the
counterexample. -/
theorem C2_stale_fallback (md5 : String → String) (c : Cache) (now : Int)
    (net : NetResult) (endpoint : String) (params : Option Params)
    (en : CacheEntry) (d : Json)
    (hfail : netFails net)
    (hen : fileEntry c (get_cache_path (md5 (cacheKeyString endpoint params))) = some en)
    (hc : en.content = some d) (ht : truthy d = true) :
    (APIService.get md5 c now net endpoint params).result = .ok d
    ∧ (APIService.get md5 c now net endpoint params).cache = c := by
  have hload : load_from_cache c (get_cache_path (md5 (cacheKeyString endpoint params)))
      = some d := by
    simp [load_from_cache, hen, hc]
  rw [get_eq]
  by_cases hs : servedFromCache c now (get_cache_path (md5 (cacheKeyString endpoint params))) = true
  · rw [if_pos hs, hload]
    exact ⟨rfl, rfl⟩
  · rw [if_neg hs]
    rcases net with _ | ⟨s, b⟩
    · rw [networkFetch_transportError, fallback_of_load_some _ _ _ _ hload ht]
      exact ⟨rfl, rfl⟩
    · have hsb : 400 ≤ s ∧ s < 600 := hfail
      rw [networkFetch_fail c now s b _ hsb.1 hsb.2, fallback_of_load_some _ _ _ _ hload ht]
      exact ⟨rfl, rfl⟩

/-- C2 witness: a stale (age 1000 ≥ 300) truthy entry is returned on a
transport failure, with the cache unchanged. -/
theorem C2_stale_fallback_witness :
    (APIService.get id [(get_cache_path (id (cacheKeyString "e" none)), ⟨some (Json.jstr "c"), 0⟩)]
        1000 .transportError "e" none).result = .ok (Json.jstr "c")
    ∧ (APIService.get id [(get_cache_path (id (cacheKeyString "e" none)), ⟨some (Json.jstr "c"), 0⟩)]
        1000 .transportError "e" none).cache
      = [(get_cache_path (id (cacheKeyString "e" none)), ⟨some (Json.jstr "c"), 0⟩)] :=
  C2_stale_fallback id _ 1000 .transportError "e" none ⟨some (Json.jstr "c"), 0⟩ (Json.jstr "c")
    trivial rfl rfl rfl

/-- C3: if the network request fails and no cache entry for the key loads
(absent, or present but failing to deserialize), `get` raises the underlying
error — `.transport` for a transport failure, `.httpStatus s` carrying the
offending status for a non-success response — and never returns a default or
empty value. -/
theorem C3_failure_without_fallback (md5 : String → String) (c : Cache) (now : Int)
    (net : NetResult) (endpoint : String) (params : Option Params)
    (hnone : load_from_cache c (get_cache_path (md5 (cacheKeyString endpoint params))) = none) :
    (net = .transportError →
      (APIService.get md5 c now net endpoint params).result = .error .transport)
    ∧ (∀ s b, net = .response s b → 400 ≤ s → s < 600 →
      (APIService.get md5 c now net endpoint params).result = .error (.httpStatus s)) := by
  have hs : servedFromCache c now (get_cache_path (md5 (cacheKeyString endpoint params)))
      = false := by
    simp [servedFromCache, hnone]
  rw [get_eq, if_neg (by simp [hs])]
  constructor
  · rintro rfl
    rw [networkFetch_transportError, fallback_of_load_none _ _ _ hnone]
  · rintro s b rfl h4 h6
    rw [networkFetch_fail c now s b _ h4 h6, fallback_of_load_none _ _ _ hnone]

/-- C3 witness: with an empty cache and a transport failure, the concrete
call raises the transport error. -/
theorem C3_failure_without_fallback_witness :
    (APIService.get id [] 0 .transportError "e" none).result = .error .transport :=
  (C3_failure_without_fallback id [] 0 .transportError "e" none rfl).1 rfl

/-- C5: the cache validity check holds exactly while `now - mtime < 300`:
a missing file is never valid; a present file is valid iff its age is
strictly less than the 300-second window; a file just written is valid; a
file whose age is at least 300 is invalid. -/
theorem C5_freshness_window (c : Cache) (now : Int) (file : String) :
    (fileEntry c file = none → is_cache_valid c now file = false)
    ∧ (∀ en, fileEntry c file = some en →
        (is_cache_valid c now file = true ↔ now - en.mtime < 300))
    ∧ (∀ d t, is_cache_valid (save_to_cache c file d t) t file = true)
    ∧ (∀ en, fileEntry c file = some en → 300 ≤ now - en.mtime →
        is_cache_valid c now file = false) := by
  refine ⟨fun h => by simp [is_cache_valid, h], fun en h => ?_, fun d t => ?_, fun en h hage => ?_⟩
  · simp [is_cache_valid, h, CACHE_EXPIRY]
  · simp [is_cache_valid, fileEntry_save_self, CACHE_EXPIRY]
  · simp only [is_cache_valid, h, CACHE_EXPIRY, decide_eq_false_iff_not, not_lt]
    exact hage

/-- C5 witness: instantiating the theorem at concrete inputs: a missing file
is invalid, a just-written file is valid, a backdated file is invalid. -/
theorem C5_freshness_window_witness :
    is_cache_valid [] 0 "f" = false
    ∧ is_cache_valid (save_to_cache [] "f" Json.null 7) 7 "f" = true
    ∧ is_cache_valid [("f", ⟨some Json.null, 0⟩)] 300 "f" = false :=
  ⟨(C5_freshness_window [] 0 "f").1 rfl,
   (C5_freshness_window [] 7 "f").2.2.1 Json.null 7,
   (C5_freshness_window [("f", ⟨some Json.null, 0⟩)] 300 "f").2.2.2 ⟨some Json.null, 0⟩ rfl
     (by decide)⟩

/-- C6: for every cache state, key and JSON value `x`, loading the key right
after storing `x` under it returns exactly `x`: the store fully overwrites
any prior content for that key (the stored file's entry is precisely the
serialized `x` with the write time as its mtime). -/
theorem C6_store_load_roundtrip (c : Cache) (file : String) (x : Json) (now : Int) :
    load_from_cache (save_to_cache c file x now) file = some x
    ∧ fileEntry (save_to_cache c file x now) file = some ⟨some x, now⟩ :=
  ⟨load_save c file x now, fileEntry_save_self c file x now⟩

/-- C7: the cache is written exactly when the network fetch succeeds: no
write on the fast path (no network call), no write on a transport error, a
4xx/5xx status, or an unparseable body; on a successful fetch the entry for
the derived key is overwritten with the response data and every other key is
untouched. -/
theorem C7_write_exactly_on_success (md5 : String → String) (c : Cache) (now : Int)
    (net : NetResult) (endpoint : String) (params : Option Params) :
    ((APIService.get md5 c now net endpoint params).networkCalled = false →
      (APIService.get md5 c now net endpoint params).cache = c)
    ∧ (net = .transportError → (APIService.get md5 c now net endpoint params).cache = c)
    ∧ (∀ s b, net = .response s b → 400 ≤ s → s < 600 →
        (APIService.get md5 c now net endpoint params).cache = c)
    ∧ (∀ s, net = .response s none → (APIService.get md5 c now net endpoint params).cache = c)
    ∧ (∀ s j, net = .response s (some j) → ¬(400 ≤ s ∧ s < 600) →
        (APIService.get md5 c now net endpoint params).networkCalled = true →
        (APIService.get md5 c now net endpoint params).cache
            = save_to_cache c (get_cache_path (md5 (cacheKeyString endpoint params))) j now
          ∧ ∀ f, f ≠ get_cache_path (md5 (cacheKeyString endpoint params)) →
              fileEntry (APIService.get md5 c now net endpoint params).cache f = fileEntry c f) := by
  rw [get_eq]
  by_cases hs : servedFromCache c now (get_cache_path (md5 (cacheKeyString endpoint params))) = true
  · rw [if_pos hs]
    refine ⟨fun _ => rfl, fun _ => rfl, fun s b _ _ _ => rfl, fun s _ => rfl, ?_⟩
    rintro s j rfl hns hcall
    cases hcall
  · rw [if_neg hs]
    refine ⟨?_, ?_, ?_, ?_, ?_⟩
    · intro h
      rw [networkFetch_networkCalled] at h
      cases h
    · rintro rfl
      exact fallback_cache_eq c _ .transport
    · rintro s b rfl h4 h6
      rw [networkFetch_fail c now s b _ h4 h6]
      exact fallback_cache_eq c _ _
    · rintro s rfl
      by_cases hsb : 400 ≤ s ∧ s < 600
      · rw [networkFetch_fail c now s none _ hsb.1 hsb.2]
        exact fallback_cache_eq c _ _
      · rw [networkFetch_badJson c now s _ hsb]
        exact fallback_cache_eq c _ _
    · rintro s j rfl hns _
      rw [networkFetch_success c now s j _ hns]
      exact ⟨rfl, fun f hf => fileEntry_save_other c _ f j now hf⟩

/-- C7 witness: a concrete successful fetch writes exactly the derived key. -/
theorem C7_write_exactly_on_success_witness :
    (APIService.get id [] 0 (.response 200 (some (Json.jstr "x"))) "e" none).cache
      = save_to_cache [] (get_cache_path (id (cacheKeyString "e" none))) (Json.jstr "x") 0 :=
  ((C7_write_exactly_on_success id [] 0 (.response 200 (some (Json.jstr "x"))) "e" none).2.2.2.2
    200 (Json.jstr "x") rfl (by omega) rfl).1

/-- C8 counterexample: a response with status 304 — not a 2xx success — and a
JSON body is *not* treated as a failure: `raise_for_status` only raises for
4xx/5xx, so the body is parsed, persisted and returned. -/
theorem C8_counterexample :
    ¬(200 ≤ (304 : Nat) ∧ (304 : Nat) ≤ 299)
    ∧ (APIService.get id [] 0 (.response 304 (some (Json.jstr "body"))) "e" none).result
        = .ok (Json.jstr "body")
    ∧ (APIService.get id [] 0 (.response 304 (some (Json.jstr "body"))) "e" none).cache
        = save_to_cache [] (get_cache_path (id (cacheKeyString "e" none))) (Json.jstr "body") 0
    ∧ (APIService.get id [] 0 (.response 304 (some (Json.jstr "body"))) "e" none).networkCalled
        = true :=
  ⟨by omega, rfl, rfl, rfl⟩

/-- C8 (amended): when the call reaches the network, a response whose status
is in 400..599 is treated as a failure (the fallback-or-raise path), and any
other status — 2xx, but also 1xx/3xx — leads to parsing, persisting and
returning the body (an unparseable body also takes the failure path).  The
restriction from "non-2xx" to "4xx/5xx" is the correction forced by the
counterexample. -/
theorem C8_status_handling (md5 : String → String) (c : Cache) (now : Int)
    (endpoint : String) (params : Option Params) (s : Nat) (b : Option Json)
    (hns : servedFromCache c now (get_cache_path (md5 (cacheKeyString endpoint params))) = false) :
    ((400 ≤ s ∧ s < 600) →
      APIService.get md5 c now (.response s b) endpoint params
        = fallback c (get_cache_path (md5 (cacheKeyString endpoint params))) (.httpStatus s))
    ∧ (¬(400 ≤ s ∧ s < 600) → ∀ j, b = some j →
      APIService.get md5 c now (.response s b) endpoint params
        = ⟨.ok j, save_to_cache c (get_cache_path (md5 (cacheKeyString endpoint params))) j now,
            true⟩)
    ∧ (¬(400 ≤ s ∧ s < 600) → b = none →
      APIService.get md5 c now (.response s b) endpoint params
        = fallback c (get_cache_path (md5 (cacheKeyString endpoint params))) .badJson) := by
  rw [get_eq, if_neg (by simp [hns])]
  refine ⟨fun hsb => ?_, fun hsb j hj => ?_, fun hsb hj => ?_⟩
  · exact networkFetch_fail c now s b _ hsb.1 hsb.2
  · subst hj
    exact networkFetch_success c now s j _ hsb
  · subst hj
    exact networkFetch_badJson c now s _ hsb

/-- C8 witness: concrete instances — a 500 response with an empty cache takes
the failure path, a 200 response parses, persists and returns its body. -/
theorem C8_status_handling_witness :
    APIService.get id [] 0 (.response 500 (some (Json.jstr "x"))) "e" none
      = fallback [] (get_cache_path (id (cacheKeyString "e" none))) (.httpStatus 500)
    ∧ APIService.get id [] 0 (.response 200 (some (Json.jstr "x"))) "e" none
      = ⟨.ok (Json.jstr "x"),
          save_to_cache [] (get_cache_path (id (cacheKeyString "e" none))) (Json.jstr "x") 0,
          true⟩ :=
  ⟨(C8_status_handling id [] 0 "e" none 500 (some (Json.jstr "x")) rfl).1 (by omega),
   (C8_status_handling id [] 0 "e" none 200 (some (Json.jstr "x")) rfl).2.1 (by omega)
     (Json.jstr "x") rfl⟩

/-- C9: an entry whose content deserializes to an empty/falsy value is
treated as absent at the public interface: on the fast path `get` still goes
to the network despite the entry being present (and however fresh); on the
network-failure path `get` raises instead of returning it; and a falsy value
returned by `get` can only have come from the network response, never from
the cache. -/
theorem C9_falsy_entry_treated_absent (md5 : String → String) (c : Cache) (now : Int)
    (net : NetResult) (endpoint : String) (params : Option Params) :
    (∀ en d, fileEntry c (get_cache_path (md5 (cacheKeyString endpoint params))) = some en →
      en.content = some d → truthy d = false →
      (APIService.get md5 c now net endpoint params).networkCalled = true
      ∧ (net = .transportError →
          (APIService.get md5 c now net endpoint params).result = .error .transport)
      ∧ (∀ s b, net = .response s b → 400 ≤ s → s < 600 →
          (APIService.get md5 c now net endpoint params).result = .error (.httpStatus s)))
    ∧ (∀ v, (APIService.get md5 c now net endpoint params).result = .ok v → truthy v = false →
        (APIService.get md5 c now net endpoint params).networkCalled = true
        ∧ ∃ s, net = .response s (some v)) := by
  constructor
  · intro en d hen hc ht
    have hload : load_from_cache c (get_cache_path (md5 (cacheKeyString endpoint params)))
        = some d := by
      simp [load_from_cache, hen, hc]
    have hs : servedFromCache c now (get_cache_path (md5 (cacheKeyString endpoint params)))
        = false := by
      simp [servedFromCache, hload, ht]
    rw [get_eq, if_neg (by simp [hs])]
    refine ⟨networkFetch_networkCalled c now net _, ?_, ?_⟩
    · rintro rfl
      rw [networkFetch_transportError, fallback_of_load_falsy _ _ _ _ hload ht]
    · rintro s b rfl h4 h6
      rw [networkFetch_fail c now s b _ h4 h6, fallback_of_load_falsy _ _ _ _ hload ht]
  · intro v hok htv
    rw [get_eq] at hok ⊢
    by_cases hs : servedFromCache c now (get_cache_path (md5 (cacheKeyString endpoint params))) = true
    · rw [if_pos hs] at hok
      obtain ⟨d, hl, ht⟩ := served_load_truthy c now _ hs
      rw [hl] at hok
      obtain rfl : d = v := by simpa using hok
      rw [ht] at htv
      cases htv
    · rw [if_neg hs] at hok ⊢
      refine ⟨networkFetch_networkCalled c now net _, ?_⟩
      rcases net with _ | ⟨s, b⟩
      · rw [networkFetch_transportError] at hok
        obtain ⟨_, ht⟩ := fallback_ok_truthy c _ .transport v hok
        rw [ht] at htv
        cases htv
      · by_cases hsb : 400 ≤ s ∧ s < 600
        · rw [networkFetch_fail c now s b _ hsb.1 hsb.2] at hok
          obtain ⟨_, ht⟩ := fallback_ok_truthy c _ _ v hok
          rw [ht] at htv
          cases htv
        · rcases b with _ | j
          · rw [networkFetch_badJson c now s _ hsb] at hok
            obtain ⟨_, ht⟩ := fallback_ok_truthy c _ _ v hok
            rw [ht] at htv
            cases htv
          · rw [networkFetch_success c now s j _ hsb] at hok
            obtain rfl : j = v := by simpa using hok
            exact ⟨s, rfl⟩

/-- C9 witness: with a fresh falsy entry and a transport failure, the
concrete call goes to the network and raises. -/
theorem C9_falsy_entry_treated_absent_witness :
    (APIService.get id [(get_cache_path (id (cacheKeyString "e" none)), ⟨some (Json.jobj []), 0⟩)]
        0 .transportError "e" none).networkCalled = true
    ∧ (APIService.get id [(get_cache_path (id (cacheKeyString "e" none)), ⟨some (Json.jobj []), 0⟩)]
        0 .transportError "e" none).result = .error .transport := by
  obtain ⟨h1, h2, _⟩ :=
    (C9_falsy_entry_treated_absent id
      [(get_cache_path (id (cacheKeyString "e" none)), ⟨some (Json.jobj []), 0⟩)]
      0 .transportError "e" none).1 ⟨some (Json.jobj []), 0⟩ (Json.jobj []) rfl rfl rfl
  exact ⟨h1, h2 rfl⟩

/-- C10: for every endpoint, passing no parameters (`None`) and passing the
empty dict derive the same cache key — `params or ` maps both to the empty
dict before serialization — and the whole call behaves identically. -/
theorem C10_none_eq_empty_params (md5 : String → String) (c : Cache) (now : Int)
    (net : NetResult) (endpoint : String) :
    cacheKeyString endpoint none = cacheKeyString endpoint (some [])
    ∧ APIService.get md5 c now net endpoint none
        = APIService.get md5 c now net endpoint (some []) :=
  ⟨rfl, rfl⟩

section EscapeLemmas

theorem char_valid_range (c : Char) :
    c.toNat < 0xD800 ∨ (0xDFFF < c.toNat ∧ c.toNat < 0x110000) := c.valid

theorem char_eq_of_toNat {c : Char} {n : Nat} (h : c.toNat = n) : c = Char.ofNat n := by
  rw [← h, Char.ofNat_toNat]

theorem hexDig_mem (n : Nat) : hexDig n ∈ hexDigits := by
  by_cases h : n < 16
  · interval_cases n <;> decide
  · unfold hexDig
    rw [List.getD_eq_default]
    · decide
    · simp only [hexDigits, List.length]
      omega

theorem hexDig_ne {c : Char} (hc : c ∉ hexDigits) (n : Nat) : hexDig n ≠ c :=
  fun h => hc (h ▸ hexDig_mem n)

theorem EscUnits.append {a b : List Char} (ha : EscUnits a) (hb : EscUnits b) :
    EscUnits (a ++ b) := by
  induction ha with
  | nil => exact hb
  | plain c l h1 h2 _ ih => exact EscUnits.plain c _ h1 h2 ih
  | pair k l hk _ ih => exact EscUnits.pair k _ hk ih

theorem escUnits_of_plain {a : List Char} (h : ∀ c ∈ a, c ≠ '"' ∧ c ≠ '\\') :
    EscUnits a := by
  induction a with
  | nil => exact EscUnits.nil
  | cons c l ih =>
    obtain ⟨h1, h2⟩ := h c (List.mem_cons_self c l)
    exact EscUnits.plain c l h1 h2 (ih fun u hu => h u (List.mem_cons_of_mem _ hu))

theorem hex4_units (n : Nat) : EscUnits (hex4 n) := by
  refine escUnits_of_plain ?_
  intro c hc
  simp only [hex4, List.mem_cons, List.not_mem_nil, or_false] at hc
  rcases hc with rfl | rfl | rfl | rfl <;>
    exact ⟨hexDig_ne (by decide) _, hexDig_ne (by decide) _⟩

theorem escChar_units (c : Char) : EscUnits (escChar c) := by
  unfold escChar
  split_ifs with h1 h2 h3 h4 h5 h6 h7 h8 h9
  · exact EscUnits.pair _ _ (by decide) EscUnits.nil
  · exact EscUnits.pair _ _ (by decide) EscUnits.nil
  · exact EscUnits.pair _ _ (by decide) EscUnits.nil
  · exact EscUnits.pair _ _ (by decide) EscUnits.nil
  · exact EscUnits.pair _ _ (by decide) EscUnits.nil
  · exact EscUnits.pair _ _ (by decide) EscUnits.nil
  · exact EscUnits.pair _ _ (by decide) EscUnits.nil
  · exact EscUnits.plain c [] h1 h2 EscUnits.nil
  · exact EscUnits.pair 'u' _ (by decide) (hex4_units _)
  · exact EscUnits.pair 'u' _ (by decide)
      ((hex4_units _).append (EscUnits.pair 'u' _ (by decide) (hex4_units _)))

theorem escape_units (s : List Char) : EscUnits (escape s) := by
  induction s with
  | nil => exact EscUnits.nil
  | cons c cs ih => exact (escChar_units c).append ih

theorem uq_nil : uq [] = 0 := rfl

theorem uq_quote (r : List Char) : uq ('"' :: r) = 1 + uq r := by
  rw [uq.eq_def]
  simp

theorem uq_pair (k : Char) (r : List Char) : uq ('\\' :: k :: r) = uq r := by
  rw [uq.eq_def]
  simp

theorem uq_plain {c : Char} (h1 : c ≠ '"') (h2 : c ≠ '\\') (r : List Char) :
    uq (c :: r) = uq r := by
  rw [uq.eq_def]
  simp [h1, h2]

theorem uq_units {a : List Char} (ha : EscUnits a) (r : List Char) :
    uq (a ++ r) = uq r := by
  induction ha with
  | nil => rfl
  | plain c l h1 h2 _ ih => rw [List.cons_append, uq_plain h1 h2, ih]
  | pair k l _ _ ih =>
    rw [List.cons_append, List.cons_append, uq_pair, ih]

theorem takeLit_nil_cons (r : List Char) : takeLit ('"' :: r) = some ([], r) := by
  rw [takeLit.eq_def]
  simp

theorem takeLit_units_some {a rest x y : List Char} (ha : EscUnits a)
    (h : takeLit rest = some (x, y)) : takeLit (a ++ rest) = some (a ++ x, y) := by
  induction ha with
  | nil => simpa using h
  | plain c l h1 h2 _ ih =>
    rw [List.cons_append, takeLit.eq_def]
    simp [h1, h2, ih]
  | pair k l _ _ ih =>
    rw [List.cons_append, List.cons_append, takeLit.eq_def]
    simp [ih]

theorem takeLit_escape (s : List Char) (r : List Char) :
    takeLit (escape s ++ '"' :: r) = some (escape s, r) := by
  induction s with
  | nil => simpa using takeLit_nil_cons r
  | cons c cs ih =>
    rw [show escape (c :: cs) = escChar c ++ escape cs from rfl, List.append_assoc]
    rw [takeLit_units_some (escChar_units c) ih]

theorem unhex_hexDig : ∀ n, n < 16 → unhex (hexDig n) = n := by decide

end EscapeLemmas

section DecoderLemmas

theorem strLit_cancel {s1 s2 x y : List Char}
    (h : escape s1 ++ '"' :: x = escape s2 ++ '"' :: y) :
    escape s1 = escape s2 ∧ x = y := by
  have h1 := takeLit_escape s1 x
  rw [h, takeLit_escape s2 y] at h1
  injection h1 with h1
  exact ⟨(congrArg Prod.fst h1).symm, (congrArg Prod.snd h1).symm⟩

theorem unesc_nil : unesc [] = [] := by
  rw [unesc.eq_def]

theorem hex_decomp (n : Nat) (h : n < 65536) :
    n / 4096 % 16 * 4096 + n / 256 % 16 * 256 + n / 16 % 16 * 16 + n % 16 = n := by
  have h1 : n / 16 / 16 = n / 256 := by rw [Nat.div_div_eq_div_mul]
  have h2 : n / 256 / 16 = n / 4096 := by rw [Nat.div_div_eq_div_mul]
  have e1 := Nat.div_add_mod n 16
  have e2 := Nat.div_add_mod (n / 16) 16
  have e3 := Nat.div_add_mod (n / 256) 16
  rw [h1] at e2
  rw [h2] at e3
  have e4 : n / 4096 < 16 := by omega
  omega

theorem unesc_escChar (c : Char) (r : List Char) :
    unesc (escChar c ++ r) = c :: unesc r := by
  have hv := char_valid_range c
  unfold escChar
  split_ifs with h1 h2 h3 h4 h5 h6 h7 h8 h9
  · subst h1
    rw [unesc.eq_def]
    simp
  · subst h2
    rw [unesc.eq_def]
    simp
  · subst h3
    rw [unesc.eq_def]
    simp
  · subst h4
    rw [unesc.eq_def]
    simp
  · subst h5
    rw [unesc.eq_def]
    simp
  · rw [char_eq_of_toNat h6]
    rw [unesc.eq_def]
    simp
  · rw [char_eq_of_toNat h7]
    rw [unesc.eq_def]
    simp
  · rw [List.cons_append, List.nil_append, unesc.eq_def]
    simp [h2]
  · -- BMP case
    have d1 : c.toNat / 4096 % 16 < 16 := Nat.mod_lt _ (by omega)
    have d2 : c.toNat / 256 % 16 < 16 := Nat.mod_lt _ (by omega)
    have d3 : c.toNat / 16 % 16 < 16 := Nat.mod_lt _ (by omega)
    have d4 : c.toNat % 16 < 16 := Nat.mod_lt _ (by omega)
    simp only [hex4, List.cons_append, List.nil_append]
    rw [unesc.eq_def]
    simp only [reduceIte]
    rw [unhex_hexDig _ d1, unhex_hexDig _ d2, unhex_hexDig _ d3, unhex_hexDig _ d4,
      hex_decomp c.toNat h9]
    rw [if_neg (by omega)]
    rw [Char.ofNat_toNat]
  · -- astral case: surrogate pair
    have hge : 0x10000 ≤ c.toNat := by omega
    have hlt : c.toNat < 0x110000 := by omega
    set x := c.toNat - 0x10000 with hx
    have hxlt : x < 0x100000 := by omega
    have hh : 0xD800 + x / 0x400 < 0x10000 := by omega
    have hl : 0xDC00 + x % 0x400 < 0x10000 := by omega
    have e1 : (0xD800 + x / 0x400) / 4096 % 16 < 16 := Nat.mod_lt _ (by omega)
    have e2 : (0xD800 + x / 0x400) / 256 % 16 < 16 := Nat.mod_lt _ (by omega)
    have e3 : (0xD800 + x / 0x400) / 16 % 16 < 16 := Nat.mod_lt _ (by omega)
    have e4 : (0xD800 + x / 0x400) % 16 < 16 := Nat.mod_lt _ (by omega)
    have f1 : (0xDC00 + x % 0x400) / 4096 % 16 < 16 := Nat.mod_lt _ (by omega)
    have f2 : (0xDC00 + x % 0x400) / 256 % 16 < 16 := Nat.mod_lt _ (by omega)
    have f3 : (0xDC00 + x % 0x400) / 16 % 16 < 16 := Nat.mod_lt _ (by omega)
    have f4 : (0xDC00 + x % 0x400) % 16 < 16 := Nat.mod_lt _ (by omega)
    simp only [hex4, List.cons_append, List.nil_append, List.append_assoc]
    rw [unesc.eq_def]
    simp only [reduceIte]
    rw [unhex_hexDig _ e1, unhex_hexDig _ e2, unhex_hexDig _ e3, unhex_hexDig _ e4,
      hex_decomp _ hh]
    rw [if_pos (by omega)]
    rw [unhex_hexDig _ f1, unhex_hexDig _ f2, unhex_hexDig _ f3, unhex_hexDig _ f4,
      hex_decomp _ hl]
    have hc : 0x10000 + (0xD800 + x / 0x400 - 0xD800) * 0x400 + (0xDC00 + x % 0x400 - 0xDC00)
        = c.toNat := by omega
    rw [hc, Char.ofNat_toNat]

theorem unesc_escape (s : List Char) : unesc (escape s) = s := by
  induction s with
  | nil => exact unesc_nil
  | cons c cs ih =>
    rw [show escape (c :: cs) = escChar c ++ escape cs from rfl, unesc_escChar, ih]

theorem escape_inj {s1 s2 : List Char} (h : escape s1 = escape s2) : s1 = s2 := by
  have h2 := congrArg unesc h
  rwa [unesc_escape, unesc_escape] at h2

end DecoderLemmas

section NumberLemmas

theorem natDump_ne_nil (n : Nat) : natDump n ≠ [] := by
  rw [natDump.eq_def]
  split_ifs with h <;> simp

theorem natDump_digits (n : Nat) : ∀ c ∈ natDump n, c.isDigit = true := by
  induction n using Nat.strong_induction_on with
  | _ n ih =>
    rw [natDump.eq_def]
    split_ifs with h
    · intro c hc
      simp only [List.mem_singleton] at hc
      subst hc
      interval_cases n <;> decide
    · intro c hc
      rcases List.mem_append.mp hc with hc | hc
      · exact ih (n / 10) (Nat.div_lt_self (by omega) (by omega)) c hc
      · simp only [List.mem_singleton] at hc
        subst hc
        have h10 : n % 10 < 10 := Nat.mod_lt _ (by omega)
        set m := n % 10 with hm
        interval_cases m <;> decide

theorem digitVal_hexDig {n : Nat} (h : n < 10) : digitVal (hexDig n) = n := by
  interval_cases n <;> decide

theorem valOfDigits_append_digit (a : List Char) (c : Char) :
    valOfDigits (a ++ [c]) = valOfDigits a * 10 + digitVal c := by
  simp [valOfDigits, List.foldl_append]

theorem valOfDigits_natDump (n : Nat) : valOfDigits (natDump n) = n := by
  induction n using Nat.strong_induction_on with
  | _ n ih =>
    rw [natDump.eq_def]
    split_ifs with h
    · simp [valOfDigits, digitVal_hexDig h]
    · rw [valOfDigits_append_digit, ih (n / 10) (Nat.div_lt_self (by omega) (by omega)),
        digitVal_hexDig (Nat.mod_lt _ (by omega))]
      omega

theorem natDump_inj {a b : Nat} (h : natDump a = natDump b) : a = b := by
  have h2 := congrArg valOfDigits h
  rwa [valOfDigits_natDump, valOfDigits_natDump] at h2

theorem natDump_head (n : Nat) : ∃ c t, natDump n = c :: t ∧ c.isDigit = true := by
  rcases he : natDump n with _ | ⟨c, t⟩
  · exact absurd he (natDump_ne_nil n)
  · exact ⟨c, t, rfl, natDump_digits n c (he ▸ List.mem_cons_self c t)⟩

theorem run_cancel (p : Char → Bool) (a : List Char) :
    ∀ b x y : List Char, (∀ c ∈ a, p c = true) → (∀ c ∈ b, p c = true) →
      (∀ c, x.head? = some c → p c = false) → (∀ c, y.head? = some c → p c = false) →
      a ++ x = b ++ y → a = b ∧ x = y := by
  induction a with
  | nil =>
    intro b x y _ hb hx _ h
    cases b with
    | nil => exact ⟨rfl, h⟩
    | cons c bs =>
      exfalso
      have hc : p c = true := hb c (List.mem_cons_self c bs)
      have hh : x.head? = some c := by rw [List.nil_append] at h; rw [h]; rfl
      rw [hx c hh] at hc
      cases hc
  | cons c as ih =>
    intro b x y ha hb hx hy h
    cases b with
    | nil =>
      exfalso
      have hc : p c = true := ha c (List.mem_cons_self _ _)
      have hh : y.head? = some c := by rw [List.nil_append] at h; rw [← h]; rfl
      rw [hy c hh] at hc
      cases hc
    | cons d bs =>
      rw [List.cons_append, List.cons_append] at h
      injection h with h1 h2
      subst h1
      obtain ⟨e1, e2⟩ := ih bs x y (fun u hu => ha u (List.mem_cons_of_mem _ hu))
        (fun u hu => hb u (List.mem_cons_of_mem _ hu)) hx hy h2
      exact ⟨by rw [e1], e2⟩

theorem intDump_cancel {n1 n2 : Int} {x y : List Char}
    (hx : ∀ c, x.head? = some c → c.isDigit = false ∧ c ≠ '-')
    (hy : ∀ c, y.head? = some c → c.isDigit = false ∧ c ≠ '-')
    (h : intDump n1 ++ x = intDump n2 ++ y) : n1 = n2 ∧ x = y := by
  rcases n1 with m1 | m1 <;> rcases n2 with m2 | m2
  · obtain ⟨ha, hb⟩ := run_cancel Char.isDigit (natDump m1) (natDump m2) x y
      (natDump_digits m1) (natDump_digits m2) (fun c hc => (hx c hc).1)
      (fun c hc => (hy c hc).1) h
    exact ⟨congrArg Int.ofNat (natDump_inj ha), hb⟩
  · exfalso
    obtain ⟨c, t, he, hd⟩ := natDump_head m1
    rw [show intDump (.ofNat m1) = natDump m1 from rfl, he,
      show intDump (.negSucc m2) = '-' :: natDump (m2 + 1) from rfl,
      List.cons_append, List.cons_append] at h
    injection h with h1 _
    subst h1
    rw [show ('-').isDigit = false from rfl] at hd
    cases hd
  · exfalso
    obtain ⟨c, t, he, hd⟩ := natDump_head m2
    rw [show intDump (.ofNat m2) = natDump m2 from rfl, he,
      show intDump (.negSucc m1) = '-' :: natDump (m1 + 1) from rfl,
      List.cons_append, List.cons_append] at h
    injection h with h1 _
    rw [← h1, show ('-').isDigit = false from rfl] at hd
    cases hd
  · rw [show intDump (.negSucc m1) = '-' :: natDump (m1 + 1) from rfl,
      show intDump (.negSucc m2) = '-' :: natDump (m2 + 1) from rfl,
      List.cons_append, List.cons_append] at h
    injection h with _ h2
    obtain ⟨ha, hb⟩ := run_cancel Char.isDigit _ _ x y (natDump_digits _) (natDump_digits _)
      (fun c hc => (hx c hc).1) (fun c hc => (hy c hc).1) h2
    have hm : m1 = m2 := by
      have := natDump_inj ha
      omega
    exact ⟨by rw [hm], hb⟩

end NumberLemmas

section ValueCancelLemmas

theorem string_data_inj {s1 s2 : String} (h : s1.data = s2.data) : s1 = s2 := by
  cases s1
  cases s2
  exact congrArg String.mk h

theorem sepHead_not_digit {x : List Char} (hx : sepHead x) :
    ∀ c, x.head? = some c → c.isDigit = false ∧ c ≠ '-' := by
  intro c hc
  rcases hx with h | h
  · rw [hc] at h
    injection h with h
    subst h
    exact ⟨by decide, by decide⟩
  · rw [hc] at h
    injection h with h
    subst h
    exact ⟨by decide, by decide⟩

theorem intDump_head (n : Int) :
    ∃ c t, intDump n = c :: t ∧ (c.isDigit = true ∨ c = '-') := by
  rcases n with m | m
  · obtain ⟨c, t, he, hd⟩ := natDump_head m
    exact ⟨c, t, he, Or.inl hd⟩
  · exact ⟨'-', natDump (m + 1), rfl, Or.inr rfl⟩

theorem pvalDump_cancel {v1 v2 : PVal} {x y : List Char}
    (hx : sepHead x) (hy : sepHead y)
    (h : pvalDump v1 ++ x = pvalDump v2 ++ y) : v1 = v2 ∧ x = y := by
  rcases v1 with s1 | n1 | b1 <;> rcases v2 with s2 | n2 | b2
  · simp only [pvalDump, List.cons_append, List.append_assoc, List.singleton_append] at h
    injection h with _ h
    obtain ⟨he, hxy⟩ := strLit_cancel h
    exact ⟨by rw [string_data_inj (escape_inj he)], hxy⟩
  · exfalso
    obtain ⟨c, t, he, hd⟩ := intDump_head n2
    simp only [pvalDump, List.cons_append] at h
    rw [he, List.cons_append] at h
    injection h with h1 _
    rcases hd with hd | hd
    · rw [← h1] at hd
      exact absurd hd (by decide)
    · rw [← h1] at hd
      exact absurd hd (by decide)
  · exfalso
    rcases b2 with _ | _ <;> simp only [pvalDump, List.cons_append] at h <;>
      injection h with h1 _ <;> exact absurd h1 (by decide)
  · exfalso
    obtain ⟨c, t, he, hd⟩ := intDump_head n1
    simp only [pvalDump, List.cons_append] at h
    rw [he, List.cons_append] at h
    injection h with h1 _
    rcases hd with hd | hd
    · rw [h1] at hd
      exact absurd hd (by decide)
    · rw [h1] at hd
      exact absurd hd (by decide)
  · simp only [pvalDump] at h
    obtain ⟨hn, hxy⟩ := intDump_cancel (sepHead_not_digit hx) (sepHead_not_digit hy) h
    exact ⟨by rw [hn], hxy⟩
  · exfalso
    obtain ⟨c, t, he, hd⟩ := intDump_head n1
    rcases b2 with _ | _ <;> simp only [pvalDump] at h <;>
      rw [he, List.cons_append] at h <;> simp only [List.cons_append] at h <;>
      injection h with h1 _
    · rcases hd with hd | hd
      · rw [h1] at hd
        exact absurd hd (by decide)
      · rw [h1] at hd
        exact absurd hd (by decide)
    · rcases hd with hd | hd
      · rw [h1] at hd
        exact absurd hd (by decide)
      · rw [h1] at hd
        exact absurd hd (by decide)
  · exfalso
    rcases b1 with _ | _ <;> simp only [pvalDump, List.cons_append] at h <;>
      injection h with h1 _ <;> exact absurd h1 (by decide)
  · exfalso
    obtain ⟨c, t, he, hd⟩ := intDump_head n2
    rcases b1 with _ | _ <;> simp only [pvalDump] at h <;>
      rw [he, List.cons_append] at h <;> simp only [List.cons_append] at h <;>
      injection h with h1 _
    · rcases hd with hd | hd
      · rw [← h1] at hd
        exact absurd hd (by decide)
      · rw [← h1] at hd
        exact absurd hd (by decide)
    · rcases hd with hd | hd
      · rw [← h1] at hd
        exact absurd hd (by decide)
      · rw [← h1] at hd
        exact absurd hd (by decide)
  · rcases b1 with _ | _ <;> rcases b2 with _ | _ <;>
      simp only [pvalDump, List.cons_append] at h
    · injection h with h1 h
      injection h with h2 h
      injection h with h3 h
      injection h with h4 h
      injection h with h5 h
      exact ⟨rfl, h⟩
    · exfalso
      injection h with h1 _
      exact absurd h1 (by decide)
    · exfalso
      injection h with h1 _
      exact absurd h1 (by decide)
    · injection h with h1 h
      injection h with h2 h
      injection h with h3 h
      injection h with h4 h
      exact ⟨rfl, h⟩

theorem entriesDump_cons (e : String × PVal) (es : List (String × PVal)) :
    entriesDump (e :: es) = entryDump e ++ restDump es := by
  cases es <;> simp [entriesDump, restDump]

theorem sepHead_restDump (es : List (String × PVal)) {x : List Char}
    (hx : x.head? = some '\x7d') : sepHead (restDump es ++ x) := by
  cases es with
  | nil =>
    right
    simpa [restDump] using hx
  | cons e es =>
    left
    rfl

end ValueCancelLemmas

section EntriesCancelLemmas

theorem entriesDump_head {e : String × PVal} {es : List (String × PVal)} :
    (entriesDump (e :: es)).head? = some '"' := by
  rw [entriesDump_cons]
  simp [entryDump]

theorem entriesDump_cancel {l1 l2 : List (String × PVal)} {x y : List Char}
    (hx : x.head? = some '\x7d') (hy : y.head? = some '\x7d')
    (h : entriesDump l1 ++ x = entriesDump l2 ++ y) : l1 = l2 ∧ x = y := by
  induction l1 generalizing l2 x y with
  | nil =>
    cases l2 with
    | nil => exact ⟨rfl, h⟩
    | cons e es =>
      exfalso
      rw [show entriesDump [] = [] from rfl, List.nil_append] at h
      have hhead : x.head? = some '"' := by
        rw [h, entriesDump_cons]
        simp [entryDump]
      rw [hx] at hhead
      injection hhead with hh
      exact absurd hh (by decide)
  | cons e1 es1 ih =>
    cases l2 with
    | nil =>
      exfalso
      rw [show entriesDump [] = [] from rfl, List.nil_append] at h
      have hhead : y.head? = some '"' := by
        rw [← h, entriesDump_cons]
        simp [entryDump]
      rw [hy] at hhead
      injection hhead with hh
      exact absurd hh (by decide)
    | cons e2 es2 =>
      obtain ⟨k1, v1⟩ := e1
      obtain ⟨k2, v2⟩ := e2
      rw [entriesDump_cons, entriesDump_cons] at h
      simp only [entryDump, List.cons_append, List.append_assoc] at h
      injection h with _ h
      obtain ⟨hk, h⟩ := strLit_cancel h
      have hkey : k1 = k2 := string_data_inj (escape_inj hk)
      injection h with _ h
      injection h with _ h
      rw [← List.append_assoc, ← List.append_assoc] at h
      rw [List.append_assoc (pvalDump v1), List.append_assoc (pvalDump v2)] at h
      obtain ⟨hv, h⟩ := pvalDump_cancel (sepHead_restDump es1 hx) (sepHead_restDump es2 hy) h
      cases es1 with
      | nil =>
        cases es2 with
        | nil =>
          simp only [restDump, List.nil_append] at h
          exact ⟨by rw [hkey, hv], h⟩
        | cons f2 fs2 =>
          exfalso
          simp only [restDump, List.nil_append, List.cons_append] at h
          have : x.head? = some ',' := by rw [h]; rfl
          rw [hx] at this
          injection this with hh
          exact absurd hh (by decide)
      | cons f1 fs1 =>
        cases es2 with
        | nil =>
          exfalso
          simp only [restDump, List.nil_append, List.cons_append] at h
          have : y.head? = some ',' := by rw [← h]; rfl
          rw [hy] at this
          injection this with hh
          exact absurd hh (by decide)
        | cons f2 fs2 =>
          simp only [restDump, List.cons_append] at h
          injection h with _ h
          injection h with _ h
          obtain ⟨he, hxy⟩ := ih hx hy h
          refine ⟨?_, hxy⟩
          rw [hkey, hv, he]

theorem objDump_inj {l1 l2 : List (String × PVal)} (h : objDump l1 = objDump l2) :
    l1 = l2 := by
  simp only [objDump] at h
  injection h with _ h
  exact (@entriesDump_cancel l1 l2 ['\x7d'] ['\x7d'] rfl rfl h).1

end EntriesCancelLemmas

section BraceLemmas

theorem append_brace_split {a r t b : List Char} (h : a ++ r = t ++ '\x7b' :: b) :
    (∃ a1 a2, a = a1 ++ '\x7b' :: a2 ∧ b = a2 ++ r) ∨
    (∃ t2, r = t2 ++ '\x7b' :: b ∧ t = a ++ t2) := by
  rcases List.append_eq_append_iff.mp h with ⟨a', h1, h2⟩ | ⟨c', h1, h2⟩
  · exact Or.inr ⟨a', h2, h1⟩
  · cases c' with
    | nil =>
      rw [List.nil_append] at h2
      exact Or.inr ⟨[], by simpa using h2.symm, by simpa using h1.symm⟩
    | cons hd tl =>
      rw [List.cons_append] at h2
      injection h2 with h3 h4
      subst h3
      exact Or.inl ⟨t, tl, h1, h4⟩

theorem cons_brace_step {c : Char} {r t b : List Char} (hc : c ≠ '\x7b')
    (h : c :: r = t ++ '\x7b' :: b) : ∃ t2, t = c :: t2 ∧ r = t2 ++ '\x7b' :: b := by
  cases t with
  | nil =>
    rw [List.nil_append] at h
    injection h with h1 _
    exact absurd h1 hc
  | cons u t2 =>
    rw [List.cons_append] at h
    injection h with h1 h2
    subst h1
    exact ⟨t2, rfl, h2⟩

theorem chunk_no_brace {a : List Char} (ha : '\x7b' ∉ a) {r t b : List Char}
    (h : a ++ r = t ++ '\x7b' :: b) : ∃ t2, r = t2 ++ '\x7b' :: b := by
  rcases append_brace_split h with ⟨a1, a2, h1, _⟩ | ⟨t2, h1, _⟩
  · exact absurd (h1 ▸ List.mem_append_right a1 (List.mem_cons_self _ _)) ha
  · exact ⟨t2, h1⟩

theorem escUnits_brace_split {a a1 a2 : List Char} (ha : EscUnits a)
    (h : a = a1 ++ '\x7b' :: a2) : EscUnits a2 := by
  induction ha generalizing a1 with
  | nil => exact absurd h.symm (by simp)
  | plain c l h1 h2 hl ih =>
    cases a1 with
    | nil =>
      rw [List.nil_append] at h
      injection h with _ h4
      exact h4 ▸ hl
    | cons u a1' =>
      rw [List.cons_append] at h
      injection h with _ h4
      exact ih h4
  | pair k l hk hl ih =>
    cases a1 with
    | nil =>
      rw [List.nil_append] at h
      injection h with h3 _
      exact absurd h3 (by decide)
    | cons u a1' =>
      rw [List.cons_append] at h
      injection h with _ h4
      cases a1' with
      | nil =>
        rw [List.nil_append] at h4
        injection h4 with h5 _
        exact absurd h5 hk
      | cons u2 a1'' =>
        rw [List.cons_append] at h4
        injection h4 with _ h5
        exact ih h5

theorem isDigit_ne {c : Char} (h : c.isDigit = true) : c ≠ '"' ∧ c ≠ '\\' ∧ c ≠ '\x7b' := by
  refine ⟨?_, ?_, ?_⟩ <;> rintro rfl <;> exact absurd h (by decide)

theorem intDump_chars (n : Int) :
    ∀ c ∈ intDump n, c ≠ '"' ∧ c ≠ '\\' ∧ c ≠ '\x7b' := by
  rcases n with m | m
  · intro c hc
    exact isDigit_ne (natDump_digits m c hc)
  · intro c hc
    rcases List.mem_cons.mp hc with rfl | hc
    · exact ⟨by decide, by decide, by decide⟩
    · exact isDigit_ne (natDump_digits (m + 1) c hc)

theorem boolDump_chars (b : Bool) :
    ∀ c ∈ pvalDump (.pbool b), c ≠ '"' ∧ c ≠ '\\' ∧ c ≠ '\x7b' := by
  rcases b with _ | _ <;> intro c hc <;>
    simp only [pvalDump, List.mem_cons, List.not_mem_nil, or_false] at hc
  · rcases hc with rfl | rfl | rfl | rfl | rfl <;> exact ⟨by decide, by decide, by decide⟩
  · rcases hc with rfl | rfl | rfl | rfl <;> exact ⟨by decide, by decide, by decide⟩

theorem uq_pvalDump (v : PVal) (r : List Char) :
    uq (pvalDump v ++ r) = uq r ∨ uq (pvalDump v ++ r) = 2 + uq r := by
  rcases v with s | n | b
  · right
    simp only [pvalDump, List.cons_append, List.append_assoc, List.singleton_append,
      List.nil_append]
    rw [uq_quote, uq_units (escape_units s.data), uq_quote]
    omega
  · left
    exact uq_units (escUnits_of_plain fun c hc =>
      ⟨(intDump_chars n c hc).1, (intDump_chars n c hc).2.1⟩) r
  · left
    exact uq_units (escUnits_of_plain fun c hc =>
      ⟨(boolDump_chars b c hc).1, (boolDump_chars b c hc).2.1⟩) r

theorem uq_entryDump (e : String × PVal) (r : List Char) :
    uq (entryDump e ++ r) = 2 + uq (pvalDump e.2 ++ r) := by
  obtain ⟨k, v⟩ := e
  simp only [entryDump, List.cons_append, List.append_assoc]
  rw [uq_quote, uq_units (escape_units k.data), uq_quote,
    uq_plain (by decide) (by decide), uq_plain (by decide) (by decide)]
  omega

theorem uq_entriesDump_parity (l : List (String × PVal)) (r : List Char) :
    uq (entriesDump l ++ r) % 2 = uq r % 2 := by
  induction l generalizing r with
  | nil => rfl
  | cons e es ih =>
    rw [entriesDump_cons, List.append_assoc, uq_entryDump]
    have hrest : uq (restDump es ++ r) % 2 = uq r % 2 := by
      cases es with
      | nil => rw [show restDump [] = [] from rfl, List.nil_append]
      | cons f fs =>
        simp only [restDump, List.cons_append]
        rw [uq_plain (by decide) (by decide), uq_plain (by decide) (by decide)]
        exact ih r
    rcases uq_pvalDump e.2 (restDump es ++ r) with h | h <;> rw [h] <;> omega

end BraceLemmas

section SuffixFreeLemmas

theorem uq_restDump_parity (es : List (String × PVal)) (r : List Char) :
    uq (restDump es ++ r) % 2 = uq r % 2 := by
  cases es with
  | nil => rw [show restDump [] = [] from rfl, List.nil_append]
  | cons f fs =>
    simp only [restDump, List.cons_append]
    rw [uq_plain (by decide) (by decide), uq_plain (by decide) (by decide)]
    exact uq_entriesDump_parity (f :: fs) r

theorem brace_split_pval (v : PVal) (r t b : List Char)
    (h : pvalDump v ++ r = t ++ '\x7b' :: b) :
    uq b % 2 ≠ uq r % 2 ∨ ∃ t2, r = t2 ++ '\x7b' :: b := by
  rcases v with s | n | b0
  · simp only [pvalDump, List.cons_append, List.append_assoc, List.singleton_append,
      List.nil_append] at h
    obtain ⟨t1, _, h⟩ := cons_brace_step (by decide) h
    rcases append_brace_split h with ⟨a1, a2, h1, h2⟩ | ⟨t2, h2, _⟩
    · left
      subst h2
      rw [uq_units (escUnits_brace_split (escape_units s.data) h1), uq_quote]
      omega
    · obtain ⟨t3, _, h3⟩ := cons_brace_step (by decide) h2
      exact Or.inr ⟨t3, h3⟩
  · simp only [pvalDump] at h
    rcases chunk_no_brace (fun hm => ((intDump_chars n '\x7b' hm).2.2 rfl)) h with ⟨t2, h2⟩
    exact Or.inr ⟨t2, h2⟩
  · rcases chunk_no_brace (fun hm => ((boolDump_chars b0 '\x7b' hm).2.2 rfl)) h with ⟨t2, h2⟩
    exact Or.inr ⟨t2, h2⟩

theorem brace_split_entry (e : String × PVal) (r t b : List Char)
    (h : entryDump e ++ r = t ++ '\x7b' :: b) :
    uq b % 2 ≠ uq r % 2 ∨ ∃ t2, r = t2 ++ '\x7b' :: b := by
  obtain ⟨k, v⟩ := e
  simp only [entryDump, List.cons_append, List.append_assoc] at h
  obtain ⟨t1, _, h⟩ := cons_brace_step (by decide) h
  rcases append_brace_split h with ⟨a1, a2, h1, h2⟩ | ⟨t2, h2, _⟩
  · left
    subst h2
    rw [uq_units (escUnits_brace_split (escape_units k.data) h1), uq_quote,
      uq_plain (by decide) (by decide), uq_plain (by decide) (by decide)]
    rcases uq_pvalDump v r with hq | hq <;> rw [hq] <;> omega
  · obtain ⟨t3, _, h3⟩ := cons_brace_step (by decide) h2
    obtain ⟨t4, _, h4⟩ := cons_brace_step (by decide) h3
    obtain ⟨t5, _, h5⟩ := cons_brace_step (by decide) h4
    exact brace_split_pval v r t5 b h5

theorem brace_split_entries (l : List (String × PVal)) (r t b : List Char)
    (h : entriesDump l ++ r = t ++ '\x7b' :: b) :
    uq b % 2 ≠ uq r % 2 ∨ ∃ t2, r = t2 ++ '\x7b' :: b := by
  induction l generalizing t with
  | nil =>
    rw [show entriesDump [] = [] from rfl, List.nil_append] at h
    exact Or.inr ⟨t, h⟩
  | cons e es ih =>
    rw [entriesDump_cons, List.append_assoc] at h
    rcases brace_split_entry e (restDump es ++ r) t b h with hq | ⟨t2, h2⟩
    · left
      rw [← uq_restDump_parity es r]
      exact hq
    · cases es with
      | nil =>
        rw [show restDump [] = [] from rfl, List.nil_append] at h2
        exact Or.inr ⟨t2, h2⟩
      | cons f fs =>
        simp only [restDump, List.cons_append] at h2
        obtain ⟨t3, _, h3⟩ := cons_brace_step (by decide) h2
        obtain ⟨t4, _, h4⟩ := cons_brace_step (by decide) h3
        exact ih t4 h4

theorem dumps_suffix_free {l1 l2 : List (String × PVal)} {t : List Char}
    (h : objDump l1 = t ++ objDump l2) : t = [] := by
  cases t with
  | nil => rfl
  | cons u t2 =>
    exfalso
    simp only [objDump, List.cons_append] at h
    injection h with h1 h2
    rcases brace_split_entries l1 ['\x7d'] t2 (entriesDump l2 ++ ['\x7d']) h2 with hq | ⟨t3, h3⟩
    · exact hq (uq_entriesDump_parity l2 ['\x7d'])
    · cases t3 with
      | nil =>
        rw [List.nil_append] at h3
        injection h3 with h4 _
        exact absurd h4 (by decide)
      | cons w t4 =>
        rw [List.cons_append] at h3
        injection h3 with _ h4
        exact absurd h4.symm (by simp)

theorem cacheKeyChars_inj {e1 e2 : String} {p1 p2 : Params}
    (h : cacheKeyChars e1 (some p1) = cacheKeyChars e2 (some p2)) :
    e1 = e2 ∧ sortEntries p1 = sortEntries p2 := by
  unfold cacheKeyChars at h
  rcases List.append_eq_append_iff.mp h with ⟨a2, h1, h2⟩ | ⟨c2, h1, h2⟩
  · have ha : a2 = [] := dumps_suffix_free h2
    subst ha
    rw [List.append_nil] at h1
    rw [List.nil_append] at h2
    exact ⟨string_data_inj h1.symm, objDump_inj h2⟩
  · have hc : c2 = [] := dumps_suffix_free h2
    subst hc
    rw [List.append_nil] at h1
    rw [List.nil_append] at h2
    exact ⟨string_data_inj h1, (objDump_inj h2).symm⟩

end SuffixFreeLemmas

section SortLemmas

theorem insertEntry_perm (e : String × PVal) (l : Params) :
    List.Perm (insertEntry e l) (e :: l) := by
  induction l with
  | nil => exact List.Perm.refl _
  | cons f fs ih =>
    rw [insertEntry]
    by_cases h : e.1 ≤ f.1
    · rw [if_pos h]
    · rw [if_neg h]
      exact (ih.cons f).trans (List.Perm.swap e f fs)

theorem sortEntries_perm (l : Params) : List.Perm (sortEntries l) l := by
  induction l with
  | nil => exact List.Perm.refl _
  | cons e es ih => exact (insertEntry_perm e (sortEntries es)).trans (ih.cons e)

theorem insertEntry_sorted (e : String × PVal) (l : Params)
    (hl : l.Pairwise (fun a b => a.1 ≤ b.1)) :
    (insertEntry e l).Pairwise (fun a b => a.1 ≤ b.1) := by
  induction l with
  | nil => simp [insertEntry]
  | cons f fs ih =>
    rw [insertEntry]
    by_cases h : e.1 ≤ f.1
    · rw [if_pos h]
      refine List.Pairwise.cons ?_ hl
      intro x hx
      rcases List.mem_cons.mp hx with rfl | hx
      · exact h
      · exact le_trans h (List.rel_of_pairwise_cons hl hx)
    · rw [if_neg h]
      rcases hl with _ | ⟨hfs, hps⟩
      refine List.Pairwise.cons ?_ (ih hps)
      intro x hx
      rcases List.mem_cons.mp ((insertEntry_perm e fs).mem_iff.mp hx) with rfl | hx2
      · exact le_of_not_le h
      · exact hfs x hx2

theorem sortEntries_sorted (l : Params) :
    (sortEntries l).Pairwise (fun a b => a.1 ≤ b.1) := by
  induction l with
  | nil => exact List.Pairwise.nil
  | cons e es ih => exact insertEntry_sorted e _ ih

instance : IsAntisymm (String × PVal) (fun a b => a.1 < b.1) :=
  ⟨fun _ _ h1 h2 => absurd h2 (not_lt_of_lt h1)⟩

theorem nodupKeys_perm {l1 l2 : Params} (h : List.Perm l1 l2) (h1 : NodupKeys l1) : NodupKeys l2 :=
  ((h.map Prod.fst).nodup_iff).mp h1

theorem sorted_strict {l : Params} (hs : l.Pairwise (fun a b => a.1 ≤ b.1))
    (hn : NodupKeys l) : l.Pairwise (fun a b => a.1 < b.1) := by
  have hne : l.Pairwise (fun a b => a.1 ≠ b.1) := by
    have h2 : (l.map Prod.fst).Pairwise (fun a b => a ≠ b) := hn
    exact List.pairwise_map.mp h2
  exact (hs.and hne).imp fun h => lt_of_le_of_ne h.1 h.2

theorem sortEntries_eq_of_perm {l1 l2 : Params} (h : List.Perm l1 l2) (h1 : NodupKeys l1) :
    sortEntries l1 = sortEntries l2 := by
  have hp : List.Perm (sortEntries l1) (sortEntries l2) :=
    (sortEntries_perm l1).trans (h.trans (sortEntries_perm l2).symm)
  have hn1 : NodupKeys (sortEntries l1) := nodupKeys_perm (sortEntries_perm l1).symm h1
  have hn2 : NodupKeys (sortEntries l2) :=
    nodupKeys_perm (sortEntries_perm l2).symm (nodupKeys_perm h h1)
  exact List.eq_of_perm_of_sorted hp
    (sorted_strict (sortEntries_sorted l1) hn1)
    (sorted_strict (sortEntries_sorted l2) hn2)

theorem nodupKeys_tail {e : String × PVal} {l : Params} (h : NodupKeys (e :: l)) :
    NodupKeys l := by
  have h2 : (e.1 :: l.map Prod.fst).Nodup := h
  exact (List.nodup_cons.mp h2).2

theorem lookupP_perm {l1 l2 : Params} (h : List.Perm l1 l2) :
    NodupKeys l1 → ∀ k, lookupP k l1 = lookupP k l2 := by
  induction h with
  | nil => exact fun _ _ => rfl
  | cons x _ ih =>
    intro hn k
    obtain ⟨xk, xv⟩ := x
    by_cases hx : xk = k
    · simp only [lookupP, if_pos hx]
    · simp only [lookupP, if_neg hx]
      exact ih (nodupKeys_tail hn) k
  | swap x y t =>
    intro hn k
    obtain ⟨xk, xv⟩ := x
    obtain ⟨yk, yv⟩ := y
    have hne : yk ≠ xk := by
      have h2 : (yk :: xk :: t.map Prod.fst).Nodup := hn
      have := (List.nodup_cons.mp h2).1
      exact fun he => this (he ▸ List.mem_cons_self _ _)
    by_cases h1 : yk = k <;> by_cases h2 : xk = k
    · exact absurd (h1.trans h2.symm) hne
    · simp only [lookupP, if_pos h1, if_neg h2]
    · simp only [lookupP, if_pos h2, if_neg h1]
    · simp only [lookupP, if_neg h1, if_neg h2]
  | trans h1 _ ih1 ih2 =>
    intro hn k
    exact (ih1 hn k).trans (ih2 (nodupKeys_perm h1 hn) k)

theorem lookupP_eq_some_iff {l : Params} (hn : NodupKeys l) (k : String) (v : PVal) :
    (lookupP k l = some v) ↔ (k, v) ∈ l := by
  induction l with
  | nil => simp [lookupP]
  | cons e es ih =>
    obtain ⟨ek, ev⟩ := e
    by_cases he : ek = k
    · subst he
      rw [show lookupP ek ((ek, ev) :: es) = some ev from by simp [lookupP]]
      constructor
      · rintro h
        injection h with h
        subst h
        exact List.mem_cons_self _ _
      · rintro h
        rcases List.mem_cons.mp h with h | h
        · injection h with _ h2
          rw [h2]
        · exfalso
          have h2 : (ek :: es.map Prod.fst).Nodup := hn
          exact (List.nodup_cons.mp h2).1
            (List.mem_map.mpr ⟨(ek, v), h, rfl⟩)
    · rw [show lookupP k ((ek, ev) :: es) = lookupP k es from by simp [lookupP, he]]
      rw [ih (nodupKeys_tail hn)]
      constructor
      · exact fun h => List.mem_cons_of_mem _ h
      · intro h
        rcases List.mem_cons.mp h with h | h
        · injection h with h1 _
          exact absurd h1.symm he
        · exact h

theorem perm_of_lookupP_eq {l1 l2 : Params} (h1 : NodupKeys l1) (h2 : NodupKeys l2)
    (h : ∀ k, lookupP k l1 = lookupP k l2) : List.Perm l1 l2 := by
  have hn1 : l1.Nodup := List.Nodup.of_map Prod.fst h1
  have hn2 : l2.Nodup := List.Nodup.of_map Prod.fst h2
  refine (List.perm_ext_iff_of_nodup hn1 hn2).mpr ?_
  rintro ⟨k, v⟩
  rw [← lookupP_eq_some_iff h1 k v, ← lookupP_eq_some_iff h2 k v, h k]

end SortLemmas

/-- C4: cache-key derivation.  If two request descriptors have the same
endpoint string and parameter mappings that are equal key-by-key (in any key
order), the derived pre-hash key strings — and hence the MD5-derived cache
keys — are identical.  If the endpoints differ or some parameter value
differs, the pre-hash key strings differ, which is exactly "the derived cache
keys differ modulo the accepted hash-collision risk". -/
theorem C4_cache_key_derivation (e1 e2 : String) (p1 p2 : Params)
    (h1 : NodupKeys p1) (h2 : NodupKeys p2) :
    ((e1 = e2 ∧ ∀ k, lookupP k p1 = lookupP k p2) →
      cacheKeyString e1 (some p1) = cacheKeyString e2 (some p2))
    ∧ ((e1 ≠ e2 ∨ ∃ k, lookupP k p1 ≠ lookupP k p2) →
      cacheKeyString e1 (some p1) ≠ cacheKeyString e2 (some p2)) := by
  constructor
  · rintro ⟨rfl, hl⟩
    have hperm : List.Perm p1 p2 := perm_of_lookupP_eq h1 h2 hl
    have hsort : sortEntries p1 = sortEntries p2 := sortEntries_eq_of_perm hperm h1
    unfold cacheKeyString cacheKeyChars dumps
    rw [show (some p1).getD [] = p1 from rfl, show (some p2).getD [] = p2 from rfl, hsort]
  · intro hd heq
    have hchars : cacheKeyChars e1 (some p1) = cacheKeyChars e2 (some p2) :=
      congrArg String.data heq
    obtain ⟨he, hs⟩ := cacheKeyChars_inj hchars
    rcases hd with hd | ⟨k, hk⟩
    · exact hd he
    · apply hk
      have hp1 : List.Perm p1 (sortEntries p1) := (sortEntries_perm p1).symm
      calc lookupP k p1 = lookupP k (sortEntries p1) := lookupP_perm hp1 h1 k
        _ = lookupP k (sortEntries p2) := by rw [hs]
        _ = lookupP k p2 := lookupP_perm (sortEntries_perm p2)
              (nodupKeys_perm (sortEntries_perm p2).symm h2) k

/-- C4 witness: concrete instances of both directions — permuting a
two-entry parameter dict leaves the derived key unchanged, and two different
endpoints with equal (empty) parameters give different keys. -/
theorem C4_cache_key_derivation_witness :
    cacheKeyString "e" (some [("a", .pstr "x"), ("b", .pstr "y")])
      = cacheKeyString "e" (some [("b", .pstr "y"), ("a", .pstr "x")])
    ∧ cacheKeyString "a" (some []) ≠ cacheKeyString "b" (some []) := by
  constructor
  · refine (C4_cache_key_derivation "e" "e" [("a", .pstr "x"), ("b", .pstr "y")]
      [("b", .pstr "y"), ("a", .pstr "x")] (by decide) (by decide)).1 ⟨rfl, ?_⟩
    intro k
    simp only [lookupP]
    by_cases ha : "a" = k <;> by_cases hb : "b" = k
    · exact absurd (ha.trans hb.symm) (by decide)
    · simp [ha, hb]
    · simp [ha, hb]
    · simp [ha, hb]
  · exact (C4_cache_key_derivation "a" "b" [] [] (by decide) (by decide)).2
      (Or.inl (by decide))
